import Mathlib

/-!
Verification of the affix discovery and interval-table synthesis engine of
pbbridgemapper. The definitions below are a shallow embedding of the Python
sources (pbbridgemapper/affixes.py, pbbridgemapper/main.py,
pbbridgemapper/smrtview_output.py): Python integers become Int, Python dicts
become association lists or finitely-updated functions, fallible statements
(KeyError, NameError, RuntimeError, TypeError) become Except String results.
-/

namespace Pbbridgemapper

/-- Region annotation kinds, the constants ADAPTER_REGION, INSERT_REGION and
HQ_REGION imported from pbcore BasH5IO; the source itself selects the
high-quality row with the literal kind 2 (affixes.py line 129). -/
def ADAPTER_REGION : Int := 0

/-- Insert (subread) region kind from pbcore BasH5IO. -/
def INSERT_REGION : Int := 1

/-- High-quality region kind from pbcore BasH5IO. -/
def HQ_REGION : Int := 2

/-- A (movie_name, hole_number) pair, the first-level dictionary key. -/
abbrev SubreadKey := String × Int

/-- A (rStart, rEnd) half-open subread interval from the region table. -/
abbrev Bounds := Int × Int

/-- BasH5IO.intersectRanges from pbcore: the intersection of two half-open
ranges, or none when it is empty. -/
def intersectRanges (r1 r2 : Int × Int) : Option (Int × Int) :=
  let b := max r1.1 r2.1
  let e := min r1.2 r2.2
  if b < e then some (b, e) else none

/-- The overlap predicate of the specification: two half-open intervals
overlap iff max of the starts is below min of the ends. -/
def rangesOverlap (r1 r2 : Int × Int) : Prop :=
  max r1.1 r2.1 < min r1.2 r2.2

instance : DecidableRel rangesOverlap := fun r1 r2 => by
  unfold rangesOverlap; infer_instance

theorem intersectRanges_isSome_iff (r1 r2 : Int × Int) :
    (intersectRanges r1 r2).isSome ↔ rangesOverlap r1 r2 := by
  unfold intersectRanges rangesOverlap
  by_cases h : max r1.1 r2.1 < min r1.2 r2.2 <;> simp [h]

/-- Python dict lookup on an association list: first matching key. -/
def alookup {α β : Type} [DecidableEq α] : List (α × β) → α → Option β
  | [], _ => none
  | (k, v) :: rest, key => if k = key then some v else alookup rest key

/-- Python dict assignment on an association list: replace the first
occurrence of the key, or append the pair when the key is absent. -/
def aset {α β : Type} [DecidableEq α] : List (α × β) → α → β → List (α × β)
  | [], key, v => [(key, v)]
  | (k, w) :: rest, key, v =>
      if k = key then (k, v) :: rest else (k, w) :: aset rest key v

/-- Python dict.pop on an association list: drop the first occurrence. -/
def apop {α β : Type} [DecidableEq α] : List (α × β) → α → List (α × β)
  | [], _ => []
  | (k, v) :: rest, key => if k = key then rest else (k, v) :: apop rest key

theorem alookup_aset_self {α β : Type} [DecidableEq α]
    (l : List (α × β)) (k : α) (v : β) : alookup (aset l k v) k = some v := by
  induction l with
  | nil => simp [aset, alookup]
  | cons p rest ih =>
      by_cases h : p.1 = k <;> simp [aset, alookup, h, ih]

theorem alookup_aset_ne {α β : Type} [DecidableEq α]
    (l : List (α × β)) (k k' : α) (v : β) (h : k' ≠ k) :
    alookup (aset l k v) k' = alookup l k' := by
  induction l with
  | nil =>
      have hk : k ≠ k' := fun hk => h hk.symm
      simp [aset, alookup, hk]
  | cons p rest ih =>
      obtain ⟨a, b0⟩ := p
      by_cases hp : a = k
      · have hne : k ≠ k' := fun hk => h hk.symm
        simp [aset, alookup, hp, hne]
      · simp [aset, alookup, hp, ih]

/-- The subread dictionary built by affixes.subread_dictionary, reduced to its
key structure: the outer dict keys in iteration order, each with its inner
dict keys (the subread bounds) in iteration order. The inner values (None
markers) carry no information at this stage. -/
abbrev SubreadIndex := List (SubreadKey × List Bounds)

/-- The scan inside find_subread_entry: the first subread bounds of the key
that intersect the read extent of the alignment. -/
def findOverlappingBounds (ext : Int × Int) : List Bounds → Option Bounds
  | [] => none
  | b :: rest =>
      if (intersectRanges ext b).isSome then some b
      else findOverlappingBounds ext rest

/-- A cmp.h5 alignment record, with the fields the source reads. The float
percent similarity is carried as its already-rounded value since no claim
depends on the rounding. -/
structure CmpAlignment where
  movieName : String
  holeNumber : Int
  rStart : Int
  rEnd : Int
  referenceName : String
  rcRefStrand : Int
  tStart : Int
  tEnd : Int
  similarityRounded : Int
  mapQV : Int
deriving Repr, DecidableEq

/-- affixes.find_subread_entry: returns (None, None) when the key is absent,
and otherwise the key together with the first overlapping subread bounds
(which is None when the alignment overlaps none of them). -/
def find_subread_entry (a : CmpAlignment) (sd : SubreadIndex) :
    Option SubreadKey × Option Bounds :=
  let key : SubreadKey := (a.movieName, a.holeNumber)
  match alookup sd key with
  | none => (none, none)
  | some bl => (some key, findOverlappingBounds (a.rStart, a.rEnd) bl)

/-- The alignment_extents dictionary of affix_boundaries, as a function from
(key, bounds) to the optional running envelope. -/
abbrev Extents := SubreadKey → Bounds → Option (Int × Int)

/-- Initial alignment_extents: every subread entry starts at None. -/
def initExtents : Extents := fun _ _ => none

/-- Pointwise update of the alignment_extents dictionary. -/
def updateExt (e : Extents) (k : SubreadKey) (b : Bounds) (v : Int × Int) :
    Extents :=
  fun k' b' => if k' = k ∧ b' = b then some v else e k' b'

/-- One iteration of the envelope-accumulation loop of affix_boundaries
(lines 68-80). When the key is found but no subread bounds overlap, the
source indexes alignment_extents[key] with None, which raises KeyError. -/
def extentsStep (sd : SubreadIndex) (ext : Extents) (a : CmpAlignment) :
    Except String Extents :=
  match find_subread_entry a sd with
  | (none, _) => .ok ext
  | (some _, none) => .error "KeyError"
  | (some key, some b) =>
      match ext key b with
      | none => .ok (updateExt ext key b (a.rStart, a.rEnd))
      | some cur =>
          .ok (updateExt ext key b (min a.rStart cur.1, max a.rEnd cur.2))

/-- The envelope-accumulation loop of affix_boundaries as explicit
recursion over the alignment stream. -/
def runExtents (sd : SubreadIndex) : Extents → List CmpAlignment →
    Except String Extents
  | ext, [] => .ok ext
  | ext, a :: rest =>
      match extentsStep sd ext a with
      | .error e => .error e
      | .ok ext1 => runExtents sd ext1 rest

/-- The envelope-accumulation pass of affix_boundaries over the whole
alignment stream, starting from the all-None dictionary. -/
def alignment_extents (sd : SubreadIndex) (aligns : List CmpAlignment) :
    Except String Extents :=
  runExtents sd initExtents aligns

/-- The affix_bounds dictionary: (movie, hole) keys with lists of affix
intervals. -/
abbrev AffixBounds := List (SubreadKey × List (Int × Int))

/-- Python setdefault(key, []).append(v) on the affix_bounds dictionary. -/
def appendAffix (ab : AffixBounds) (k : SubreadKey) (v : Int × Int) :
    AffixBounds :=
  match ab with
  | [] => [(k, [v])]
  | (k', l) :: rest =>
      if k' = k then (k', l ++ [v]) :: rest else (k', l) :: appendAffix rest k v

/-- The body of the affix-recording loop of affix_boundaries (lines 87-99)
for one subread: skip unmapped subreads, then append the prefix and suffix
candidates that meet the size threshold. -/
def affixStepForBounds (ext : Extents) (minAffixSize : Int) (key : SubreadKey)
    (ab : AffixBounds) (b : Bounds) : AffixBounds :=
  match ext key b with
  | none => ab
  | some e =>
      let ab1 :=
        if minAffixSize ≤ e.1 - b.1 then appendAffix ab key (b.1, e.1) else ab
      if minAffixSize ≤ b.2 - e.2 then appendAffix ab1 key (e.2, b.2) else ab1

/-- The affix-recording pass of affix_boundaries over all subread entries. -/
def buildAffixBounds (sd : SubreadIndex) (minAffixSize : Int) (ext : Extents) :
    AffixBounds :=
  sd.foldl (fun ab kb => kb.2.foldl (affixStepForBounds ext minAffixSize kb.1) ab) []

/-- affixes.affix_boundaries: envelope accumulation followed by affix
recording. -/
def affix_boundaries (sd : SubreadIndex) (aligns : List CmpAlignment)
    (minAffixSize : Int) : Except String AffixBounds :=
  (alignment_extents sd aligns).map (buildAffixBounds sd minAffixSize)

/-- Membership of an affix interval in the affix_bounds dictionary. -/
def memAffix (ab : AffixBounds) (k : SubreadKey) (v : Int × Int) : Prop :=
  ∃ l, alookup ab k = some l ∧ v ∈ l

/-- Whether find_subread_entry locates alignment a at key k with subread
bounds b. -/
def locatedAt (sd : SubreadIndex) (k : SubreadKey) (b : Bounds)
    (a : CmpAlignment) : Bool :=
  decide (find_subread_entry a sd = (some k, some b))

/-- The read extents of the alignments of the stream that are located at
(k, b). -/
def locatedExtents (sd : SubreadIndex) (k : SubreadKey) (b : Bounds)
    (aligns : List CmpAlignment) : List (Int × Int) :=
  (aligns.filter (locatedAt sd k b)).map (fun a => (a.rStart, a.rEnd))

/-- Accumulating the union envelope over a list of read extents, starting
from an optional current envelope, exactly as the accumulation loop of
affix_boundaries widens its running extent. -/
def hullFrom : Option (Int × Int) → List (Int × Int) → Option (Int × Int)
  | acc, [] => acc
  | none, p :: ps => hullFrom (some p) ps
  | some c, p :: ps => hullFrom (some (min p.1 c.1, max p.2 c.2)) ps

theorem runExtents_eq (sd : SubreadIndex) :
    ∀ (aligns : List CmpAlignment) (ext0 ext : Extents),
      runExtents sd ext0 aligns = .ok ext →
      ∀ k b, ext k b = hullFrom (ext0 k b) (locatedExtents sd k b aligns) := by
  intro aligns
  induction aligns with
  | nil =>
      intro ext0 ext h k b
      unfold runExtents at h
      cases h
      simp [locatedExtents, hullFrom]
  | cons a rest ih =>
      intro ext0 ext h k b
      unfold runExtents at h
      cases hstep : extentsStep sd ext0 a with
      | error e => rw [hstep] at h; cases h
      | ok ext1 =>
          rw [hstep] at h
          rw [ih ext1 ext h k b]
          unfold extentsStep at hstep
          cases hfind : find_subread_entry a sd with
          | mk o1 o2 =>
              rw [hfind] at hstep
              match o1, o2 with
              | none, o2 =>
                  cases hstep
                  have hloc : locatedAt sd k b a = false := by
                    simp [locatedAt, hfind]
                  simp [locatedExtents, List.filter, hloc]
              | some key, none => cases hstep
              | some key, some b' =>
                  dsimp only at hstep
                  by_cases hkb : k = key ∧ b = b'
                  · obtain ⟨hk, hb⟩ := hkb
                    subst hk; subst hb
                    have hloc : locatedAt sd k b a = true := by
                      simp [locatedAt, hfind]
                    cases hcur : ext0 k b with
                    | none =>
                        rw [hcur] at hstep
                        cases hstep
                        simp [locatedExtents, List.filter, hloc, updateExt,
                          hcur, hullFrom]
                    | some cur =>
                        rw [hcur] at hstep
                        cases hstep
                        simp [locatedExtents, List.filter, hloc, updateExt,
                          hcur, hullFrom]
                  · have hloc : locatedAt sd k b a = false := by
                      simp only [locatedAt, hfind, decide_eq_false_iff_not]
                      intro hEq
                      have h1 : some key = some k := congrArg Prod.fst hEq
                      have h2 : some b' = some b := congrArg Prod.snd hEq
                      exact hkb ⟨(Option.some.inj h1).symm,
                        (Option.some.inj h2).symm⟩
                    have hupd : ext1 k b = ext0 k b := by
                      cases hcur : ext0 key b' with
                      | none =>
                          rw [hcur] at hstep; cases hstep
                          simp [updateExt, hkb]
                      | some cur =>
                          rw [hcur] at hstep; cases hstep
                          simp [updateExt, hkb]
                    rw [hupd]
                    simp [locatedExtents, List.filter, hloc]

theorem hullFrom_some_isSome :
    ∀ (ps : List (Int × Int)) (c : Int × Int),
      (hullFrom (some c) ps).isSome := by
  intro ps
  induction ps with
  | nil => intro c; simp [hullFrom]
  | cons p rest ih => intro c; simpa [hullFrom] using ih _

theorem hullFrom_none_eq_none_iff (ps : List (Int × Int)) :
    hullFrom none ps = none ↔ ps = [] := by
  cases ps with
  | nil => simp [hullFrom]
  | cons p rest =>
      simp only [hullFrom]
      constructor
      · intro h
        have := hullFrom_some_isSome rest p
        rw [h] at this
        cases this
      · intro h; cases h

theorem hullFrom_bounds :
    ∀ (ps : List (Int × Int)) (acc : Option (Int × Int)) (e : Int × Int),
      hullFrom acc ps = some e →
      (∀ p ∈ ps, e.1 ≤ p.1 ∧ p.2 ≤ e.2) ∧
      (∀ c, acc = some c → e.1 ≤ c.1 ∧ c.2 ≤ e.2) := by
  intro ps
  induction ps with
  | nil =>
      intro acc e h
      refine ⟨by simp, ?_⟩
      intro c hc
      rw [hc] at h
      cases h
      exact ⟨le_refl _, le_refl _⟩
  | cons p rest ih =>
      intro acc e h
      cases acc with
      | none =>
          simp only [hullFrom] at h
          obtain ⟨hmem, hacc⟩ := ih (some p) e h
          have hp := hacc p rfl
          exact ⟨by
            intro q hq
            rcases List.mem_cons.mp hq with hq | hq
            · exact hq ▸ hp
            · exact hmem q hq, by intro c hc; cases hc⟩
      | some c =>
          simp only [hullFrom] at h
          obtain ⟨hmem, hacc⟩ := ih _ e h
          have hmm := hacc _ rfl
          have hp : e.1 ≤ p.1 ∧ p.2 ≤ e.2 := by
            constructor
            · exact le_trans hmm.1 (min_le_left _ _)
            · exact le_trans (le_max_left _ _) hmm.2
          have hc : e.1 ≤ c.1 ∧ c.2 ≤ e.2 := by
            constructor
            · exact le_trans hmm.1 (min_le_right _ _)
            · exact le_trans (le_max_right _ _) hmm.2
          refine ⟨?_, ?_⟩
          · intro q hq
            rcases List.mem_cons.mp hq with hq | hq
            · exact hq ▸ hp
            · exact hmem q hq
          · intro c' hc'
            cases hc'
            exact hc

theorem hullFrom_attained :
    ∀ (ps : List (Int × Int)) (acc : Option (Int × Int)) (e : Int × Int),
      hullFrom acc ps = some e →
      ((∃ p ∈ ps, p.1 = e.1) ∨ (∃ c, acc = some c ∧ c.1 = e.1)) ∧
      ((∃ p ∈ ps, p.2 = e.2) ∨ (∃ c, acc = some c ∧ c.2 = e.2)) := by
  intro ps
  induction ps with
  | nil =>
      intro acc e h
      cases acc with
      | none => cases h
      | some c =>
          cases h
          exact ⟨Or.inr ⟨_, rfl, rfl⟩, Or.inr ⟨_, rfl, rfl⟩⟩
  | cons p rest ih =>
      intro acc e h
      cases acc with
      | none =>
          simp only [hullFrom] at h
          obtain ⟨h1, h2⟩ := ih (some p) e h
          constructor
          · rcases h1 with ⟨q, hq, hqe⟩ | ⟨c, hc, hce⟩
            · exact Or.inl ⟨q, List.mem_cons_of_mem _ hq, hqe⟩
            · cases hc; exact Or.inl ⟨p, List.mem_cons_self _ _, hce⟩
          · rcases h2 with ⟨q, hq, hqe⟩ | ⟨c, hc, hce⟩
            · exact Or.inl ⟨q, List.mem_cons_of_mem _ hq, hqe⟩
            · cases hc; exact Or.inl ⟨p, List.mem_cons_self _ _, hce⟩
      | some c =>
          simp only [hullFrom] at h
          obtain ⟨h1, h2⟩ := ih _ e h
          constructor
          · rcases h1 with ⟨q, hq, hqe⟩ | ⟨c', hc', hce⟩
            · exact Or.inl ⟨q, List.mem_cons_of_mem _ hq, hqe⟩
            · cases hc'
              rcases min_choice p.1 c.1 with hm | hm
              · exact Or.inl ⟨p, List.mem_cons_self _ _, by rw [← hce, hm]⟩
              · exact Or.inr ⟨c, rfl, by rw [← hce, hm]⟩
          · rcases h2 with ⟨q, hq, hqe⟩ | ⟨c', hc', hce⟩
            · exact Or.inl ⟨q, List.mem_cons_of_mem _ hq, hqe⟩
            · cases hc'
              rcases max_choice p.2 c.2 with hm | hm
              · exact Or.inl ⟨p, List.mem_cons_self _ _, by rw [← hce, hm]⟩
              · exact Or.inr ⟨c, rfl, by rw [← hce, hm]⟩

/-- The affix intervals the recording loop keeps for one subread entry,
given the accumulated envelope: the prefix candidate (subread start to
envelope start) and the suffix candidate (envelope end to subread end),
each iff its length meets the threshold; nothing for unmapped subreads. -/
def keptAt (ext : Extents) (minAffixSize : Int) (key : SubreadKey)
    (b : Bounds) (v : Int × Int) : Prop :=
  ∃ e, ext key b = some e ∧
    ((v = (b.1, e.1) ∧ minAffixSize ≤ e.1 - b.1) ∨
     (v = (e.2, b.2) ∧ minAffixSize ≤ b.2 - e.2))

theorem memAffix_appendAffix (ab : AffixBounds) (k : SubreadKey)
    (v : Int × Int) (k' : SubreadKey) (v' : Int × Int) :
    memAffix (appendAffix ab k v) k' v' ↔
      memAffix ab k' v' ∨ (k' = k ∧ v' = v) := by
  induction ab with
  | nil =>
      by_cases hk : k = k'
      · subst hk
        simp [appendAffix, memAffix, alookup]
      · have hk2 : ¬ (k' = k) := fun hh => hk hh.symm
        simp [appendAffix, memAffix, alookup, hk, hk2]
  | cons p rest ih =>
      obtain ⟨k0, l⟩ := p
      by_cases h0 : k0 = k
      · by_cases hk : k0 = k'
        · have hk'k : k' = k := by rw [← hk, h0]
          simp [appendAffix, memAffix, alookup, h0, hk, hk'k]
        · have hk'k : ¬ (k' = k) := by
            intro hh; exact hk (by rw [h0, hh])
          have hkk' : ¬ (k = k') := fun hh => hk'k hh.symm
          simp [appendAffix, memAffix, alookup, h0, hk, hk'k, hkk']
      · by_cases hk : k0 = k'
        · have hk'k : ¬ (k' = k) := by
            intro hh; exact h0 (by rw [hk, hh])
          simp [appendAffix, memAffix, alookup, h0, hk, hk'k]
        · have hstep : appendAffix ((k0, l) :: rest) k v =
              (k0, l) :: appendAffix rest k v := by
            simp [appendAffix, h0]
          have hL : ∀ (xs : AffixBounds),
              memAffix ((k0, l) :: xs) k' v' ↔ memAffix xs k' v' := by
            intro xs; simp [memAffix, alookup, hk]
          rw [hstep, hL (appendAffix rest k v), hL rest]
          exact ih

theorem memAffix_affixStep (ext : Extents) (M : Int) (key : SubreadKey)
    (ab : AffixBounds) (b : Bounds) (k : SubreadKey) (v : Int × Int) :
    memAffix (affixStepForBounds ext M key ab b) k v ↔
      memAffix ab k v ∨ (k = key ∧ keptAt ext M key b v) := by
  unfold affixStepForBounds keptAt
  cases hext : ext key b with
  | none => simp
  | some e =>
      by_cases h1 : M ≤ e.1 - b.1 <;> by_cases h2 : M ≤ b.2 - e.2 <;>
        (simp [h1, h2, memAffix_appendAffix]; try tauto)

theorem memAffix_innerFold (ext : Extents) (M : Int) (key : SubreadKey) :
    ∀ (bl : List Bounds) (ab : AffixBounds) (k : SubreadKey) (v : Int × Int),
      memAffix (bl.foldl (affixStepForBounds ext M key) ab) k v ↔
        memAffix ab k v ∨ (k = key ∧ ∃ b ∈ bl, keptAt ext M key b v) := by
  intro bl
  induction bl with
  | nil => intro ab k v; simp
  | cons b bl ih =>
      intro ab k v
      simp only [List.foldl_cons]
      rw [ih, memAffix_affixStep]
      simp only [List.mem_cons]
      constructor
      · rintro ((hm | ⟨hk, hkept⟩) | ⟨hk, b', hb', hkept⟩)
        · exact Or.inl hm
        · exact Or.inr ⟨hk, b, Or.inl rfl, hkept⟩
        · exact Or.inr ⟨hk, b', Or.inr hb', hkept⟩
      · rintro (hm | ⟨hk, b', hb' | hb', hkept⟩)
        · exact Or.inl (Or.inl hm)
        · exact Or.inl (Or.inr ⟨hk, hb' ▸ hkept⟩)
        · exact Or.inr ⟨hk, b', hb', hkept⟩

theorem memAffix_buildAffixBounds (sd : SubreadIndex) (M : Int)
    (ext : Extents) (k : SubreadKey) (v : Int × Int) :
    memAffix (buildAffixBounds sd M ext) k v ↔
      ∃ kb ∈ sd, k = kb.1 ∧ ∃ b ∈ kb.2, keptAt ext M kb.1 b v := by
  have main : ∀ (l : SubreadIndex) (ab : AffixBounds),
      memAffix
        (l.foldl (fun ab kb => kb.2.foldl (affixStepForBounds ext M kb.1) ab) ab)
        k v ↔
      memAffix ab k v ∨ ∃ kb ∈ l, k = kb.1 ∧ ∃ b ∈ kb.2, keptAt ext M kb.1 b v := by
    intro l
    induction l with
    | nil => intro ab; simp
    | cons kb l ih =>
        intro ab
        simp only [List.foldl_cons]
        rw [ih, memAffix_innerFold]
        simp only [List.mem_cons]
        constructor
        · rintro ((hm | ⟨hk, hb⟩) | ⟨kb', hkb', hrest⟩)
          · exact Or.inl hm
          · exact Or.inr ⟨kb, Or.inl rfl, hk, hb⟩
          · exact Or.inr ⟨kb', Or.inr hkb', hrest⟩
        · rintro (hm | ⟨kb', hkb' | hkb', hrest⟩)
          · exact Or.inl (Or.inl hm)
          · exact Or.inl (Or.inr (hkb' ▸ hrest))
          · exact Or.inr ⟨kb', hkb', hrest⟩
  unfold buildAffixBounds
  rw [main]
  simp [memAffix, alookup]

/-- Total affix count of the affix_bounds dictionary, as logged by the
caller in main.py (sum over keys of the list lengths). -/
def totalAffixes (ab : AffixBounds) : Nat :=
  (ab.map (fun p => p.2.length)).sum

/-- The number of affixes the recording loop appends for one subread
entry. -/
def keptCount (ext : Extents) (M : Int) (key : SubreadKey) (b : Bounds) :
    Nat :=
  match ext key b with
  | none => 0
  | some e =>
      (if M ≤ e.1 - b.1 then 1 else 0) + (if M ≤ b.2 - e.2 then 1 else 0)

theorem totalAffixes_appendAffix (ab : AffixBounds) (k : SubreadKey)
    (v : Int × Int) :
    totalAffixes (appendAffix ab k v) = totalAffixes ab + 1 := by
  induction ab with
  | nil => simp [appendAffix, totalAffixes]
  | cons p rest ih =>
      obtain ⟨k0, l⟩ := p
      simp only [totalAffixes] at ih
      by_cases h0 : k0 = k <;> simp [appendAffix, totalAffixes, h0, ih] <;>
        omega

theorem totalAffixes_affixStep (ext : Extents) (M : Int) (key : SubreadKey)
    (ab : AffixBounds) (b : Bounds) :
    totalAffixes (affixStepForBounds ext M key ab b) =
      totalAffixes ab + keptCount ext M key b := by
  unfold affixStepForBounds keptCount
  cases hext : ext key b with
  | none => simp
  | some e =>
      by_cases h1 : M ≤ e.1 - b.1 <;> by_cases h2 : M ≤ b.2 - e.2 <;>
        simp [h1, h2, totalAffixes_appendAffix]

theorem totalAffixes_innerFold (ext : Extents) (M : Int) (key : SubreadKey) :
    ∀ (bl : List Bounds) (ab : AffixBounds),
      totalAffixes (bl.foldl (affixStepForBounds ext M key) ab) =
        totalAffixes ab + (bl.map (keptCount ext M key)).sum := by
  intro bl
  induction bl with
  | nil => intro ab; simp
  | cons b bl ih =>
      intro ab
      simp only [List.foldl_cons, List.map_cons, List.sum_cons]
      rw [ih, totalAffixes_affixStep]
      omega

theorem totalAffixes_build (sd : SubreadIndex) (M : Int) (ext : Extents) :
    totalAffixes (buildAffixBounds sd M ext) =
      (sd.map (fun kb => (kb.2.map (keptCount ext M kb.1)).sum)).sum := by
  have main : ∀ (l : SubreadIndex) (ab : AffixBounds),
      totalAffixes
        (l.foldl (fun ab kb => kb.2.foldl (affixStepForBounds ext M kb.1) ab) ab) =
      totalAffixes ab + (l.map (fun kb => (kb.2.map (keptCount ext M kb.1)).sum)).sum := by
    intro l
    induction l with
    | nil => intro ab; simp
    | cons kb l ih =>
        intro ab
        simp only [List.foldl_cons, List.map_cons, List.sum_cons]
        rw [ih, totalAffixes_innerFold]
        omega
  unfold buildAffixBounds
  rw [main]
  simp [totalAffixes]

theorem keptCount_mono (ext : Extents) (M M' : Int) (key : SubreadKey)
    (b : Bounds) (h : M ≤ M') :
    keptCount ext M' key b ≤ keptCount ext M key b := by
  unfold keptCount
  cases ext key b with
  | none => exact le_refl _
  | some e =>
      by_cases h1 : M' ≤ e.1 - b.1 <;> by_cases h2 : M' ≤ b.2 - e.2 <;>
        simp [h1, h2] <;> split_ifs <;> omega

theorem affix_boundaries_eq (sd : SubreadIndex) (aligns : List CmpAlignment)
    (M : Int) (ab : AffixBounds) (ext : Extents)
    (hab : affix_boundaries sd aligns M = .ok ab)
    (hext : alignment_extents sd aligns = .ok ext) :
    ab = buildAffixBounds sd M ext := by
  unfold affix_boundaries at hab
  rw [hext] at hab
  simp only [Except.map] at hab
  cases hab
  rfl

/-- C4: for every subread with at least one located alignment, the affix
extractor reports the prefix interval (subread start, envelope start) iff
its length meets min_affix_size and the suffix interval (envelope end,
subread end) iff its length meets min_affix_size, where the envelope is the
(min read start, max read end) hull of the alignments located at that
subread; a subread with no located alignment contributes no affix interval
(its extent stays None, and keptAt demands a Some extent). -/
theorem claim_C4_affix_characterization (sd : SubreadIndex)
    (aligns : List CmpAlignment) (M : Int) (ab : AffixBounds) (ext : Extents)
    (hab : affix_boundaries sd aligns M = .ok ab)
    (hext : alignment_extents sd aligns = .ok ext) :
    (∀ k v, memAffix ab k v ↔
        ∃ kb ∈ sd, k = kb.1 ∧ ∃ b ∈ kb.2, keptAt ext M kb.1 b v) ∧
    (∀ k b e, ext k b = some e →
        (∀ p ∈ locatedExtents sd k b aligns, e.1 ≤ p.1 ∧ p.2 ≤ e.2) ∧
        (∃ p ∈ locatedExtents sd k b aligns, p.1 = e.1) ∧
        (∃ p ∈ locatedExtents sd k b aligns, p.2 = e.2)) ∧
    (∀ k b, ext k b = none ↔ locatedExtents sd k b aligns = []) := by
  have hForm := runExtents_eq sd aligns initExtents ext hext
  have hab' := affix_boundaries_eq sd aligns M ab ext hab hext
  subst hab'
  refine ⟨?_, ?_, ?_⟩
  · intro k v
    exact memAffix_buildAffixBounds sd M ext k v
  · intro k b e he
    have h := hForm k b
    rw [he] at h
    have hb := hullFrom_bounds _ _ _ h.symm
    have ha := hullFrom_attained _ _ _ h.symm
    refine ⟨hb.1, ?_, ?_⟩
    · rcases ha.1 with h' | ⟨c, hc, _⟩
      · exact h'
      · simp [initExtents] at hc
    · rcases ha.2 with h' | ⟨c, hc, _⟩
      · exact h'
      · simp [initExtents] at hc
  · intro k b
    rw [hForm k b]
    exact hullFrom_none_eq_none_iff _

/-- The single-subread index of the worked example of the specification:
one subread (0, 1000) at hole 1 of movie m. -/
def sdW : SubreadIndex := [(("m", 1), [(0, 1000)])]

/-- A primary alignment covering read coordinates (100, 900) of that
subread. -/
def alnW : CmpAlignment :=
  { movieName := "m", holeNumber := 1, rStart := 100, rEnd := 900,
    referenceName := "ref", rcRefStrand := 0, tStart := 0, tEnd := 800,
    similarityRounded := 95, mapQV := 254 }

/-- The extents dictionary after accumulating that one alignment. -/
def extW : Extents := updateExt initExtents ("m", 1) (0, 1000) (100, 900)

/-- The affix bounds for the worked example at threshold 50: the prefix
(0, 100) and the suffix (900, 1000). -/
def abW : AffixBounds := [(("m", 1), [(0, 100), (900, 1000)])]

theorem claim_C4_witness :
    memAffix abW ("m", 1) (0, 100) ↔
      ∃ kb ∈ sdW, (("m", 1) : SubreadKey) = kb.1 ∧
        ∃ b ∈ kb.2, keptAt extW 50 kb.1 b (0, 100) :=
  (claim_C4_affix_characterization sdW [alnW] 50 abW extW rfl rfl).1
    ("m", 1) (0, 100)

/-- C8: under threshold M every retained affix interval has length at least
M, and raising the threshold to M' at least M never increases the total
retained affix count for the same subread index and alignment stream. -/
theorem claim_C8_threshold_monotone (sd : SubreadIndex)
    (aligns : List CmpAlignment) (M M' : Int) (ab : AffixBounds)
    (hab : affix_boundaries sd aligns M = .ok ab) (hMM' : M ≤ M') :
    (∀ k v, memAffix ab k v → M ≤ v.2 - v.1) ∧
    ∃ ab', affix_boundaries sd aligns M' = .ok ab' ∧
      totalAffixes ab' ≤ totalAffixes ab := by
  unfold affix_boundaries at hab ⊢
  cases hext : alignment_extents sd aligns with
  | error e => rw [hext] at hab; cases hab
  | ok ext =>
      rw [hext] at hab
      simp only [Except.map] at hab
      cases hab
      constructor
      · intro k v hv
        rw [memAffix_buildAffixBounds] at hv
        obtain ⟨kb, _hkb, _hk, b, _hb, e, _he, hcase⟩ := hv
        rcases hcase with ⟨hveq, hlen⟩ | ⟨hveq, hlen⟩ <;> subst hveq <;>
          simpa using hlen
      · refine ⟨buildAffixBounds sd M' ext, by simp [Except.map], ?_⟩
        rw [totalAffixes_build, totalAffixes_build]
        apply List.sum_le_sum
        intro kb _
        apply List.sum_le_sum
        intro b _
        exact keptCount_mono ext M M' kb.1 b hMM'

theorem claim_C8_witness :
    (∀ k v, memAffix abW k v → 50 ≤ v.2 - v.1) ∧
    ∃ ab', affix_boundaries sdW [alnW] 120 = .ok ab' ∧
      totalAffixes ab' ≤ totalAffixes abW :=
  claim_C8_threshold_monotone sdW [alnW] 50 120 abW rfl (by norm_num)

/-- C9: every affix interval retained for a subread is disjoint, in the
max-start before min-end sense, from the read interval of every alignment
located at that same subread during envelope accumulation. -/
theorem claim_C9_no_self_overlap (sd : SubreadIndex)
    (aligns : List CmpAlignment) (ext : Extents) (M : Int)
    (k : SubreadKey) (b : Bounds) (e : Int × Int) (a : CmpAlignment)
    (hext : alignment_extents sd aligns = .ok ext)
    (he : ext k b = some e) (ha : a ∈ aligns)
    (hloc : find_subread_entry a sd = (some k, some b)) :
    (M ≤ e.1 - b.1 → ¬ rangesOverlap (b.1, e.1) (a.rStart, a.rEnd)) ∧
    (M ≤ b.2 - e.2 → ¬ rangesOverlap (e.2, b.2) (a.rStart, a.rEnd)) := by
  have hForm := runExtents_eq sd aligns initExtents ext hext k b
  rw [he] at hForm
  have hmem : ((a.rStart, a.rEnd) : Int × Int) ∈ locatedExtents sd k b aligns := by
    unfold locatedExtents
    apply List.mem_map_of_mem
    rw [List.mem_filter]
    exact ⟨ha, by simp [locatedAt, hloc]⟩
  have hb := (hullFrom_bounds _ _ _ hForm.symm).1 _ hmem
  constructor
  · intro _ hov
    have hov' : max b.1 a.rStart < min e.1 a.rEnd := hov
    have h1 : min e.1 a.rEnd ≤ e.1 := min_le_left _ _
    have h2 : a.rStart ≤ max b.1 a.rStart := le_max_right _ _
    have h3 := hb.1
    omega
  · intro _ hov
    have hov' : max e.2 a.rStart < min b.2 a.rEnd := hov
    have h1 : min b.2 a.rEnd ≤ a.rEnd := min_le_right _ _
    have h2 : e.2 ≤ max e.2 a.rStart := le_max_left _ _
    have h3 := hb.2
    omega

theorem claim_C9_witness :
    (50 ≤ (100 : Int) - 0 → ¬ rangesOverlap (0, 100) (100, 900)) ∧
    (50 ≤ (1000 : Int) - 900 → ¬ rangesOverlap (900, 1000) (100, 900)) :=
  claim_C9_no_self_overlap sdW [alnW] extW 50 ("m", 1) (0, 1000) (100, 900)
    alnW rfl rfl (by simp) rfl

/-- The per-alignment output record built by
smrtview_output.alignment_to_output_dict. The score field is the sentinel
-100000 of the source; pct_similarity carries the already-rounded
similarity. -/
structure OutputDict where
  read_name : String
  subread_length : Int
  subread_start : Int
  subread_end : Int
  ref_name : String
  strand : Int
  target_start : Int
  target_end : Int
  score : Int
  pct_similarity : Int
  map_qv : Int
deriving Repr, DecidableEq

/-- smrtview_output.alignment_to_output_dict. -/
def alignment_to_output_dict (a : CmpAlignment) (b : Bounds) : OutputDict :=
  { read_name := a.movieName ++ "/" ++ toString a.holeNumber ++ "/" ++
      toString b.1 ++ "_" ++ toString b.2
    subread_length := b.2 - b.1
    subread_start := a.rStart - b.1
    subread_end := a.rEnd - b.1
    ref_name := a.referenceName
    strand := a.rcRefStrand
    target_start := a.tStart
    target_end := a.tEnd
    score := -100000
    pct_similarity := a.similarityRounded
    map_qv := a.mapQV }

/-- A per-subread role dictionary with string keys among prefix, primary
and suffix, in dict iteration order. -/
abbrev RoleMap := List (String × OutputDict)

/-- The all_subread_dict of create_pbbridgemapper_output: the dict key
structure (which the passes never change) plus the current value of each
subread entry (None until a primary alignment is recorded). -/
structure SubreadDict where
  index : SubreadIndex
  entry : SubreadKey → Bounds → Option RoleMap

/-- The dictionary produced by affixes.subread_dictionary: every entry
starts as None. -/
def initDict (sd : SubreadIndex) : SubreadDict :=
  ⟨sd, fun _ _ => none⟩

/-- Assignment to one subread entry of all_subread_dict. -/
def setEntry (d : SubreadDict) (k : SubreadKey) (b : Bounds)
    (v : Option RoleMap) : SubreadDict :=
  ⟨d.index, fun k' b' => if k' = k ∧ b' = b then v else d.entry k' b'⟩

/-- State of the primary-alignment loop of create_pbbridgemapper_output:
the dictionary, plus whether the misspelled local name existing_aligment
has been bound yet. The source only ever binds that name to None (line
194), so a single flag captures it. -/
structure Pass1State where
  dict : SubreadDict
  typoBound : Bool

/-- One iteration of the primary-alignment loop (main.py lines 184-202).
When the entry already holds a record, the source reads
existing_alignment = entry[primary] and then tests the misspelled
existing_aligment first: if that name was bound (by an earlier iteration
that took the None branch) the test is True and the record is replaced
unconditionally; if it was never bound the source raises NameError. When
the located bounds are None the source raises KeyError (line 190). -/
def pass1Step (st : Pass1State) (a : CmpAlignment) : Except String Pass1State :=
  match find_subread_entry a st.dict.index with
  | (none, _) => .ok st
  | (some _, none) => .error "KeyError"
  | (some key, some b) =>
      match st.dict.entry key b with
      | some rm =>
          match alookup rm "primary" with
          | none => .error "KeyError"
          | some _ =>
              let fresh := some [("primary", alignment_to_output_dict a b)]
              if st.typoBound then
                .ok { st with dict := setEntry st.dict key b fresh }
              else .error "NameError"
      | none =>
          let fresh := some [("primary", alignment_to_output_dict a b)]
          .ok { dict := setEntry st.dict key b fresh, typoBound := true }

/-- The primary-alignment loop over the stream. -/
def runPass1 : Pass1State → List CmpAlignment → Except String Pass1State
  | st, [] => .ok st
  | st, a :: rest =>
      match pass1Step st a with
      | .error e => .error e
      | .ok st1 => runPass1 st1 rest

/-- The primary pass started on a dictionary with the misspelled name
still unbound. -/
def pass1 (d : SubreadDict) (aligns : List CmpAlignment) :
    Except String Pass1State :=
  runPass1 ⟨d, false⟩ aligns

/-- The replace-if-strictly-better-quality store of the affix loop
(main.py lines 234-243). -/
def pass2Assign (d : SubreadDict) (key : SubreadKey) (b : Bounds)
    (rm : RoleMap) (role : String) (ad : OutputDict) : SubreadDict :=
  match alookup rm role with
  | none => setEntry d key b (some (aset rm role ad))
  | some ex =>
      if ex.map_qv < ad.map_qv then setEntry d key b (some (aset rm role ad))
      else d

/-- One iteration of the affix-alignment loop (main.py lines 211-243):
skip unlocated alignments, raise KeyError on gap alignments (line 218
indexes the entry dict with None), skip subreads with no recorded entry,
classify against the primary record, drop overlapping alignments, and
store under the strictly-greater map quality rule. -/
def pass2Step (d : SubreadDict) (a : CmpAlignment) : Except String SubreadDict :=
  match find_subread_entry a d.index with
  | (none, _) => .ok d
  | (some _, none) => .error "KeyError"
  | (some key, some b) =>
      match d.entry key b with
      | none => .ok d
      | some rm =>
          let ad := alignment_to_output_dict a b
          match alookup rm "primary" with
          | none => .error "KeyError"
          | some pd =>
              if ad.subread_end ≤ pd.subread_start then
                .ok (pass2Assign d key b rm "prefix" ad)
              else if pd.subread_end ≤ ad.subread_start then
                .ok (pass2Assign d key b rm "suffix" ad)
              else .ok d

/-- The affix-alignment loop over the stream. -/
def runPass2 : SubreadDict → List CmpAlignment → Except String SubreadDict
  | d, [] => .ok d
  | d, a :: rest =>
      match pass2Step d a with
      | .error e => .error e
      | .ok d1 => runPass2 d1 rest

/-- The inner loop of smrtview_output.remove_nonunique_alignments over one
role dict, modelling the live CPython dict iterator: the planned key order
is the dict order at loop entry, and every next() call (including the final
one that would raise StopIteration) first checks that the dict size still
equals the size recorded when the iterator was created, raising
RuntimeError otherwise. -/
def roleIterLoop : List String → RoleMap → Nat → Except String RoleMap
  | [], m, n0 =>
      if m.length = n0 then .ok m else .error "RuntimeError"
  | k :: ks, m, n0 =>
      if m.length ≠ n0 then .error "RuntimeError"
      else if k = "prefix" ∨ k = "suffix" then
        match alookup m k with
        | none => .error "KeyError"
        | some od =>
            if od.map_qv < 254 then roleIterLoop ks (apop m k) n0
            else roleIterLoop ks m n0
      else roleIterLoop ks m n0

/-- The body of remove_nonunique_alignments for one subread entry: entries
that are still None are iterated directly by the source (line 102), which
raises TypeError on None. -/
def remove_roles (orm : Option RoleMap) : Except String RoleMap :=
  match orm with
  | none => .error "TypeError"
  | some m => roleIterLoop (m.map Prod.fst) m m.length

/-- The inner bounds loop of remove_nonunique_alignments. -/
def removeInner (d : SubreadDict) (key : SubreadKey) :
    List Bounds → Except String SubreadDict
  | [] => .ok d
  | b :: rest =>
      match remove_roles (d.entry key b) with
      | .error e => .error e
      | .ok m => removeInner (setEntry d key b (some m)) key rest

/-- The outer key loop of remove_nonunique_alignments. -/
def removeOuter : SubreadDict → List (SubreadKey × List Bounds) →
    Except String SubreadDict
  | d, [] => .ok d
  | d, kb :: rest =>
      match removeInner d kb.1 kb.2 with
      | .error e => .error e
      | .ok d1 => removeOuter d1 rest

/-- smrtview_output.remove_nonunique_alignments. -/
def remove_nonunique_alignments (d : SubreadDict) : Except String SubreadDict :=
  removeOuter d d.index

/-- The nine per-role fields of a report row, in the order of
smrtview_output.output_line. -/
def orderedVals (od : OutputDict) : List String :=
  [toString od.subread_start, toString od.subread_end, od.ref_name,
   toString od.strand, toString od.target_start, toString od.target_end,
   toString od.score, toString od.pct_similarity, toString od.map_qv]

/-- The cells of one role of a report row: nine underscore placeholders
when the role is absent. -/
def roleCells (rm : RoleMap) (role : String) : List String :=
  match alookup rm role with
  | none => List.replicate 9 "_"
  | some od => orderedVals od

/-- smrtview_output.output_line: the row starts with the read name and
subread length of the primary record (KeyError when primary is absent),
followed by the cells for the three roles in fixed order. -/
def output_line (rm : RoleMap) : Except String String :=
  match alookup rm "primary" with
  | none => .error "KeyError"
  | some pd =>
      .ok (String.intercalate "\t"
        ([pd.read_name, toString pd.subread_length] ++
         roleCells rm "prefix" ++ roleCells rm "primary" ++
         roleCells rm "suffix"))

/-- The subread entries in the iteration order of
write_split_reads_file and count_subreads. -/
def entriesList (d : SubreadDict) : List (Option RoleMap) :=
  d.index.flatMap (fun kb => kb.2.map (fun b => d.entry kb.1 b))

/-- smrtview_output.count_subreads: the number of entries that are not
None. -/
def count_subreads (d : SubreadDict) : Nat :=
  ((entriesList d).filter (fun orm => orm.isSome)).length

/-- The row-writing loop of write_split_reads_file: one line per non-None
entry. -/
def linesLoop : List (Option RoleMap) → List String → Except String (List String)
  | [], acc => .ok acc
  | none :: rest, acc => linesLoop rest acc
  | some rm :: rest, acc =>
      match output_line rm with
      | .error e => .error e
      | .ok s => linesLoop rest (acc ++ [s])

/-- smrtview_output.write_split_reads_file, modelled as the pair of the
total-subread count written in the header and the list of data rows. -/
def write_split_reads_file (d : SubreadDict) :
    Except String (Nat × List String) :=
  match linesLoop (entriesList d) [] with
  | .error e => .error e
  | .ok lines => .ok (count_subreads d, lines)

/-- The number of subread entries whose role dict holds a primary role. -/
def numPrimary (d : SubreadDict) : Nat :=
  ((entriesList d).filter
    (fun orm => (orm.bind (fun rm => alookup rm "primary")).isSome)).length

/-- An empty aggregation dictionary over one subread (0, 100) at hole 1 of
movie m. -/
def dP : SubreadDict := initDict [(("m", 1), [(0, 100)])]

/-- A primary alignment of that subread with the given map quality and
target start. -/
def alnQ (q ts : Int) : CmpAlignment :=
  { movieName := "m", holeNumber := 1, rStart := 10, rEnd := 90,
    referenceName := "ref", rcRefStrand := 0, tStart := ts, tEnd := ts + 80,
    similarityRounded := 90, mapQV := q }

/-- C1 fails on the code: the primary pass retains the LAST located
alignment, not the best one. After processing map quality 60 and then map
quality 10 for the same subread, the stored primary record has map quality
10; after a tie of two quality-30 alignments, the stored record is the
second one (target start 7), not the first. Cause: the misspelled local
name existing_aligment (main.py line 194) stays None once bound, so the
replacement test of line 196 is always True. -/
theorem claim_C1_primary_pass_last_wins :
    (match pass1 dP [alnQ 60 0, alnQ 10 0] with
     | .ok st => (st.dict.entry ("m", 1) (0, 100)).bind
          (fun rm => (alookup rm "primary").map OutputDict.map_qv)
     | .error _ => none) = some 10 ∧
    (match pass1 dP [alnQ 30 5, alnQ 30 7] with
     | .ok st => (st.dict.entry ("m", 1) (0, 100)).bind
          (fun rm => (alookup rm "primary").map OutputDict.target_start)
     | .error _ => none) = some 7 :=
  ⟨rfl, rfl⟩

/-- A one-subread index whose single subread is (0, 100) at hole 7. -/
def sdGap : SubreadIndex := [(("movie", 7), [(0, 100)])]

/-- An alignment whose key is in the index but whose read extent
(150, 200) overlaps no subread interval of that key. -/
def alnGap : CmpAlignment :=
  { movieName := "movie", holeNumber := 7, rStart := 150, rEnd := 200,
    referenceName := "ref", rcRefStrand := 0, tStart := 0, tEnd := 50,
    similarityRounded := 90, mapQV := 254 }

/-- C3 fails on the code: for a gap alignment find_subread_entry returns
the key together with None bounds rather than a not-found result, and all
three consumers (the envelope accumulator and both aggregation passes)
then index their per-key dictionary with None and raise KeyError instead
of silently skipping the alignment. -/
theorem claim_C3_gap_alignment_raises :
    find_subread_entry alnGap sdGap = (some ("movie", 7), none) ∧
    affix_boundaries sdGap [alnGap] 50 = .error "KeyError" ∧
    pass1 (initDict sdGap) [alnGap] = .error "KeyError" ∧
    runPass2 (initDict sdGap) [alnGap] = .error "KeyError" :=
  ⟨rfl, rfl, rfl, rfl⟩

/-- A role record with the given map quality. -/
def odMq (q : Int) : OutputDict :=
  { read_name := "m/1/0_100", subread_length := 100, subread_start := 0,
    subread_end := 80, ref_name := "ref", strand := 0, target_start := 0,
    target_end := 80, score := -100000, pct_similarity := 90, map_qv := q }

/-- A dictionary holding one subread whose role dict has a suffix with map
quality 200 (below the 254 threshold). -/
def dLow : SubreadDict :=
  { index := [(("m", 1), [(0, 100)])],
    entry := fun k b => if k = ("m", 1) ∧ b = (0, 100)
      then some [("suffix", odMq 200)] else none }

/-- A dictionary holding one subread whose entry was never populated. -/
def dNone : SubreadDict := initDict [(("m", 1), [(0, 100)])]

/-- A dictionary holding one subread with a prefix at the 254 threshold
and a primary role. -/
def dHigh : SubreadDict :=
  { index := [(("m", 1), [(0, 100)])],
    entry := fun k b => if k = ("m", 1) ∧ b = (0, 100)
      then some [("prefix", odMq 254), ("primary", odMq 60)] else none }

/-- C6 fails on the code: removing a below-threshold affix role pops a key
of the role dict while iterating that same dict, so the next iterator step
raises RuntimeError (dictionary changed size during iteration); entries
never populated are None and iterating them raises TypeError. Only role
dicts from which nothing is removed survive the filter, unchanged. -/
theorem claim_C6_unique_filter_raises :
    remove_nonunique_alignments dLow = .error "RuntimeError" ∧
    remove_nonunique_alignments dNone = .error "TypeError" ∧
    (match remove_nonunique_alignments dHigh with
     | .ok d2 => d2.entry ("m", 1) (0, 100)
     | .error _ => none) = some [("prefix", odMq 254), ("primary", odMq 60)] :=
  ⟨rfl, rfl, rfl⟩

theorem linesLoop_length :
    ∀ (l : List (Option RoleMap)) (acc : List String),
      (∀ rm, some rm ∈ l → (alookup rm "primary").isSome) →
      ∃ lines, linesLoop l acc = .ok lines ∧
        lines.length = acc.length +
          ((l.filter
            (fun orm => (orm.bind (fun rm => alookup rm "primary")).isSome)).length) := by
  intro l
  induction l with
  | nil =>
      intro acc _
      exact ⟨acc, rfl, by simp [linesLoop]⟩
  | cons orm rest ih =>
      intro acc hprim
      cases orm with
      | none =>
          obtain ⟨lines, hrun, hlen⟩ := ih acc
            (fun rm hm => hprim rm (List.mem_cons_of_mem _ hm))
          exact ⟨lines, hrun, by simpa using hlen⟩
      | some rm =>
          have hp := hprim rm (List.mem_cons_self _ _)
          cases hpd : alookup rm "primary" with
          | none => rw [hpd] at hp; cases hp
          | some pd =>
              obtain ⟨lines, hrun, hlen⟩ := ih (acc ++ [_])
                (fun rm' hm => hprim rm' (List.mem_cons_of_mem _ hm))
              refine ⟨lines, ?_, ?_⟩
              · simp only [linesLoop, output_line, hpd]
                exact hrun
              · rw [hlen]
                simp [hpd]
                omega

/-- C7: the number of data rows written by write_split_reads_file equals
the number of subread entries whose role dict holds a primary role, and
the total-subread count of the header equals that same number. The
hypothesis (every populated role dict holds a primary role) is the
invariant established by the two aggregation passes, which only ever
create entries of the form with a primary slot. -/
theorem claim_C7_report_completeness (d : SubreadDict)
    (hprim : ∀ rm, some rm ∈ entriesList d → (alookup rm "primary").isSome) :
    ∃ n lines, write_split_reads_file d = .ok (n, lines) ∧
      lines.length = numPrimary d ∧ n = numPrimary d := by
  obtain ⟨lines, hrun, hlen⟩ := linesLoop_length (entriesList d) [] hprim
  refine ⟨count_subreads d, lines, ?_, ?_, ?_⟩
  · unfold write_split_reads_file
    rw [hrun]
  · simpa [numPrimary] using hlen
  · unfold count_subreads numPrimary
    congr 1
    apply List.filter_congr
    intro orm hm
    cases orm with
    | none => simp
    | some rm => simp [hprim rm hm]

/-- The role dict of the C7 witness: a lone primary role. -/
def rmP : RoleMap := [("primary", odMq 77)]

/-- The C7 witness dictionary: one populated subread and one never
populated. -/
def dC7 : SubreadDict :=
  { index := [(("m", 1), [(0, 50), (60, 100)])],
    entry := fun k b => if k = ("m", 1) ∧ b = (0, 50) then some rmP else none }

theorem claim_C7_witness :
    ∃ n lines, write_split_reads_file dC7 = .ok (n, lines) ∧
      lines.length = numPrimary dC7 ∧ n = numPrimary dC7 :=
  claim_C7_report_completeness dC7 (by
    intro rm h
    rw [show entriesList dC7 = [some rmP, none] from rfl] at h
    simp only [List.mem_cons, List.not_mem_nil, or_false,
      Option.some.injEq] at h
    rcases h with h | h
    · subst h; rfl
    · cases h)

/-- One row of the /PulseData/Regions table: hole number, annotation kind,
start, end, score, the five integer columns of the source. -/
structure RegionRow where
  hole : Int
  kind : Int
  rstart : Int
  rend : Int
  score : Int
deriving Repr, DecidableEq

/-- Insert a value into a strictly ascending list, keeping it strictly
ascending and dropping duplicates. Folding this over the first column
gives numpy.unique: the sorted distinct hole numbers. -/
def insertSortedDistinct (x : Int) : List Int → List Int
  | [] => [x]
  | y :: ys =>
      if x < y then x :: y :: ys
      else if x = y then y :: ys
      else y :: insertSortedDistinct x ys

/-- numpy.unique over the hole-number column of the table. -/
def uniqueHoles (t : List RegionRow) : List Int :=
  t.foldl (fun acc r => insertSortedDistinct r.hole acc) []

/-- numpy.max over the end column of the rows of one hole (the rows are
never empty because the hole number came from the table itself). -/
def maxRend : List RegionRow → Int
  | [] => 0
  | r :: rs => rs.foldl (fun m x => max m x.rend) r.rend

/-- Lexicographic order on affix interval pairs: the comparison Python
list.sort uses on 2-tuples of integers. -/
def lexLe (a b : Int × Int) : Prop :=
  a.1 < b.1 ∨ (a.1 = b.1 ∧ a.2 ≤ b.2)

instance : DecidableRel lexLe := fun a b => by
  unfold lexLe; infer_instance

instance : IsTotal (Int × Int) lexLe :=
  ⟨by intro a b; unfold lexLe; omega⟩

instance : IsTrans (Int × Int) lexLe :=
  ⟨by intro a b c; unfold lexLe; omega⟩

/-- Python list.sort on a list of integer pairs. Since lexLe is a linear
order, the sorted permutation of a list is unique, so insertion sort gives
exactly the list the in-place sort of the source produces. -/
def pySort (l : List (Int × Int)) : List (Int × Int) :=
  List.insertionSort lexLe l

/-- The affix loop of affix_region_table (lines 143-151) plus the final
adapter row: for each affix in order, one adapter row from the previous
bound to the affix start and one insert row over the affix, then a last
adapter row from the final bound to the read length. -/
def affixRows (h : Int) : Int → Int → List (Int × Int) → List RegionRow
  | prev, len, [] => [⟨h, ADAPTER_REGION, prev, len, 900⟩]
  | prev, len, p :: ps =>
      ⟨h, ADAPTER_REGION, prev, p.1, 900⟩ ::
      ⟨h, INSERT_REGION, p.1, p.2, -1⟩ :: affixRows h p.2 len ps

/-- The rows affix_region_table emits for one hole, as a function of the
affix-bounds entry of that hole: with no entry, a zero-length high-quality
marker row and one full-length adapter row (the source then continues
WITHOUT copying the original high-quality row); with an entry, the
alternating adapter/insert tiling over the sorted affixes followed by the
unchanged high-quality row. IndexError when the hole has no high-quality
row in the input. -/
def holeRowsCore (t : List RegionRow) (h : Int)
    (aff : Option (List (Int × Int))) : Except String (List RegionRow) :=
  match (t.filter (fun r => r.hole == h)).find? (fun r => r.kind == HQ_REGION) with
  | none => .error "IndexError"
  | some hq =>
      match aff with
      | none =>
          .ok [⟨h, HQ_REGION, 0, 0, 0⟩,
               ⟨h, ADAPTER_REGION, 0, maxRend (t.filter (fun r => r.hole == h)), 0⟩]
      | some l =>
          .ok (affixRows h 0 (maxRend (t.filter (fun r => r.hole == h))) (pySort l)
                ++ [hq])

/-- One hole of affix_region_table: the emitted rows together with the
affix-bounds dictionary after the in-place affixes.sort() of line 142. -/
def holeRows (movie : String) (ab : AffixBounds) (t : List RegionRow)
    (h : Int) : Except String (List RegionRow × AffixBounds) :=
  match holeRowsCore t h (alookup ab (movie, h)) with
  | .error e => .error e
  | .ok rows =>
      match alookup ab (movie, h) with
      | none => .ok (rows, ab)
      | some l => .ok (rows, aset ab (movie, h) (pySort l))

/-- The hole loop of affix_region_table. -/
def artLoop (t : List RegionRow) (movie : String) :
    List Int → List RegionRow → AffixBounds →
    Except String (List RegionRow × AffixBounds)
  | [], acc, ab => .ok (acc, ab)
  | h :: hs, acc, ab =>
      match holeRows movie ab t h with
      | .error e => .error e
      | .ok (rows, ab1) => artLoop t movie hs (acc ++ rows) ab1

/-- affixes.affix_region_table, returning both the synthesized table and
the final state of the affix-bounds argument the source mutates in
place. -/
def affix_region_table (t : List RegionRow) (movie : String)
    (ab : AffixBounds) : Except String (List RegionRow × AffixBounds) :=
  artLoop t movie (uniqueHoles t) [] ab

/-- The exact-tiling predicate: the rows, in order, cover lo to hi with
each row starting where the previous one ended and no row reversed. -/
def tiles : Int → Int → List RegionRow → Prop
  | lo, hi, [] => lo = hi
  | lo, hi, r :: rs => r.rstart = lo ∧ lo ≤ r.rend ∧ tiles r.rend hi rs

def tilesDecidable : (lo hi : Int) → (rs : List RegionRow) →
    Decidable (tiles lo hi rs)
  | lo, hi, [] => inferInstanceAs (Decidable (lo = hi))
  | lo, hi, r :: rs =>
      have : Decidable (tiles r.rend hi rs) := tilesDecidable r.rend hi rs
      inferInstanceAs (Decidable (r.rstart = lo ∧ lo ≤ r.rend ∧ tiles r.rend hi rs))

attribute [instance] tilesDecidable

/-- The affix list shape the affix loop needs to produce a tiling: each
affix starts at or after the previous bound, is non-degenerate, and the
chain ends at or before the read length. -/
def chainedBelow (len : Int) : Int → List (Int × Int) → Prop
  | prev, [] => prev ≤ len
  | prev, p :: ps => prev ≤ p.1 ∧ p.1 < p.2 ∧ chainedBelow len p.2 ps

theorem affixRows_hole (h : Int) :
    ∀ (ps : List (Int × Int)) (prev len : Int) (r : RegionRow),
      r ∈ affixRows h prev len ps → r.hole = h := by
  intro ps
  induction ps with
  | nil =>
      intro prev len r hr
      simp only [affixRows, List.mem_singleton] at hr
      subst hr; rfl
  | cons p ps ih =>
      intro prev len r hr
      simp only [affixRows, List.mem_cons] at hr
      rcases hr with h1 | h1 | h1
      · subst h1; rfl
      · subst h1; rfl
      · exact ih p.2 len r h1

theorem affixRows_kinds (h : Int) :
    ∀ (ps : List (Int × Int)) (prev len : Int) (r : RegionRow),
      r ∈ affixRows h prev len ps →
      r.kind = ADAPTER_REGION ∨ r.kind = INSERT_REGION := by
  intro ps
  induction ps with
  | nil =>
      intro prev len r hr
      simp only [affixRows, List.mem_singleton] at hr
      subst hr; exact Or.inl rfl
  | cons p ps ih =>
      intro prev len r hr
      simp only [affixRows, List.mem_cons] at hr
      rcases hr with h1 | h1 | h1
      · subst h1; exact Or.inl rfl
      · subst h1; exact Or.inr rfl
      · exact ih p.2 len r h1

theorem holeRowsCore_hole (t : List RegionRow) (h : Int)
    (aff : Option (List (Int × Int))) (rows : List RegionRow)
    (hcore : holeRowsCore t h aff = .ok rows) :
    ∀ r ∈ rows, r.hole = h := by
  unfold holeRowsCore at hcore
  cases hfind : (t.filter (fun r => r.hole == h)).find?
      (fun r => r.kind == HQ_REGION) with
  | none => rw [hfind] at hcore; cases hcore
  | some hq =>
      rw [hfind] at hcore
      have hqhole : hq.hole = h := by
        have hmem := List.mem_of_find?_eq_some hfind
        have := (List.mem_filter.mp hmem).2
        simpa using this
      cases aff with
      | none =>
          cases hcore
          intro r hr
          simp only [List.mem_cons, List.not_mem_nil, or_false] at hr
          rcases hr with h1 | h1 <;> (subst h1; rfl)
      | some l =>
          cases hcore
          intro r hr
          rcases List.mem_append.mp hr with h1 | h1
          · exact affixRows_hole h (pySort l) 0 _ r h1
          · rw [List.mem_singleton.mp h1]; exact hqhole

theorem holeRows_inv (movie : String) (ab : AffixBounds) (t : List RegionRow)
    (h : Int) (rows : List RegionRow) (ab1 : AffixBounds)
    (hhr : holeRows movie ab t h = .ok (rows, ab1)) :
    holeRowsCore t h (alookup ab (movie, h)) = .ok rows ∧
    ab1 = (match alookup ab (movie, h) with
           | none => ab
           | some l => aset ab (movie, h) (pySort l)) := by
  unfold holeRows at hhr
  cases hcore : holeRowsCore t h (alookup ab (movie, h)) with
  | error e => rw [hcore] at hhr; cases hhr
  | ok rows' =>
      rw [hcore] at hhr
      cases hl : alookup ab (movie, h) with
      | none =>
          rw [hl] at hhr
          cases hhr
          exact ⟨rfl, rfl⟩
      | some l =>
          rw [hl] at hhr
          cases hhr
          exact ⟨rfl, rfl⟩

theorem artLoop_notmem (t : List RegionRow) (movie : String) :
    ∀ (hs : List Int) (acc : List RegionRow) (ab : AffixBounds)
      (out : List RegionRow) (abf : AffixBounds) (h : Int),
      artLoop t movie hs acc ab = .ok (out, abf) → h ∉ hs →
      out.filter (fun r => r.hole == h) = acc.filter (fun r => r.hole == h) ∧
      alookup abf (movie, h) = alookup ab (movie, h) := by
  intro hs
  induction hs with
  | nil =>
      intro acc ab out abf h hrun _
      cases hrun
      exact ⟨rfl, rfl⟩
  | cons h0 hs ih =>
      intro acc ab out abf h hrun hnm
      have hne : h0 ≠ h := fun he => hnm (he ▸ List.mem_cons_self _ _)
      have hnm' : h ∉ hs := fun hm => hnm (List.mem_cons_of_mem _ hm)
      unfold artLoop at hrun
      cases hhr : holeRows movie ab t h0 with
      | error e => rw [hhr] at hrun; cases hrun
      | ok pr =>
          obtain ⟨rows, ab1⟩ := pr
          rw [hhr] at hrun
          obtain ⟨hcore0, hab1⟩ := holeRows_inv movie ab t h0 rows ab1 hhr
          obtain ⟨hout, habf⟩ := ih (acc ++ rows) ab1 out abf h hrun hnm'
          constructor
          · rw [hout, List.filter_append]
            have hr : rows.filter (fun r => r.hole == h) = [] := by
              rw [List.filter_eq_nil_iff]
              intro r hr
              have hrh := holeRowsCore_hole t h0 _ rows hcore0 r hr
              simp [hrh, hne]
            rw [hr, List.append_nil]
          · rw [habf, hab1]
            cases hl : alookup ab (movie, h0) with
            | none => simp
            | some l =>
                simp only
                apply alookup_aset_ne
                intro hkeq
                have : h = h0 := congrArg Prod.snd hkeq
                exact hne this.symm

theorem artLoop_mem (t : List RegionRow) (movie : String) :
    ∀ (hs : List Int) (acc : List RegionRow) (ab : AffixBounds)
      (out : List RegionRow) (abf : AffixBounds) (h : Int),
      artLoop t movie hs acc ab = .ok (out, abf) → hs.Nodup → h ∈ hs →
      ∃ rows, holeRowsCore t h (alookup ab (movie, h)) = .ok rows ∧
        out.filter (fun r => r.hole == h) =
          acc.filter (fun r => r.hole == h) ++ rows ∧
        alookup abf (movie, h) = Option.map pySort (alookup ab (movie, h)) := by
  intro hs
  induction hs with
  | nil =>
      intro acc ab out abf h _ _ hm
      exact absurd hm (List.not_mem_nil _)
  | cons h0 hs ih =>
      intro acc ab out abf h hrun hnd hm
      unfold artLoop at hrun
      cases hhr : holeRows movie ab t h0 with
      | error e => rw [hhr] at hrun; cases hrun
      | ok pr =>
          obtain ⟨rows0, ab1⟩ := pr
          rw [hhr] at hrun
          obtain ⟨hcore0, hab1⟩ := holeRows_inv movie ab t h0 rows0 ab1 hhr
          have hnd' := List.nodup_cons.mp hnd
          rcases List.mem_cons.mp hm with he | hm'
          · subst he
            obtain ⟨hout, habf⟩ :=
              artLoop_notmem t movie hs (acc ++ rows0) ab1 out abf h hrun hnd'.1
            refine ⟨rows0, hcore0, ?_, ?_⟩
            · rw [hout, List.filter_append]
              congr 1
              rw [List.filter_eq_self]
              intro r hr
              have hrh := holeRowsCore_hole t h _ rows0 hcore0 r hr
              simp [hrh]
            · rw [habf, hab1]
              cases hl : alookup ab (movie, h) with
              | none => simp [hl]
              | some l => simp [hl, alookup_aset_self]
          · have hne : h0 ≠ h := fun he => hnd'.1 (he ▸ hm')
            have hlook1 : alookup ab1 (movie, h) = alookup ab (movie, h) := by
              rw [hab1]
              cases hl : alookup ab (movie, h0) with
              | none => simp
              | some l =>
                  simp only
                  apply alookup_aset_ne
                  intro hkeq
                  have : h = h0 := congrArg Prod.snd hkeq
                  exact hne this.symm
            obtain ⟨rows, hcore, hout, habf⟩ :=
              ih (acc ++ rows0) ab1 out abf h hrun hnd'.2 hm'
            rw [hlook1] at hcore habf
            refine ⟨rows, hcore, ?_, habf⟩
            rw [hout, List.filter_append]
            have hr0 : rows0.filter (fun r => r.hole == h) = [] := by
              rw [List.filter_eq_nil_iff]
              intro r hr
              have hrh := holeRowsCore_hole t h0 _ rows0 hcore0 r hr
              simp [hrh, hne]
            rw [hr0, List.append_nil]

theorem insertSortedDistinct_head (x : Int) :
    ∀ (l : List Int) (w : Int), (insertSortedDistinct x l).head? = some w →
      w = x ∨ l.head? = some w := by
  intro l w h
  cases l with
  | nil =>
      simp only [insertSortedDistinct, List.head?_cons, Option.some.injEq] at h
      exact Or.inl h.symm
  | cons y ys =>
      unfold insertSortedDistinct at h
      by_cases h1 : x < y
      · simp only [if_pos h1, List.head?_cons, Option.some.injEq] at h
        exact Or.inl h.symm
      · by_cases h2 : x = y
        · simp only [if_neg h1, if_pos h2, List.head?_cons,
            Option.some.injEq] at h
          exact Or.inr (by simp [h])
        · simp only [if_neg h1, if_neg h2, List.head?_cons,
            Option.some.injEq] at h
          exact Or.inr (by simp [h])

theorem chain_insertSortedDistinct (x : Int) :
    ∀ l : List Int, List.Chain' (· < ·) l →
      List.Chain' (· < ·) (insertSortedDistinct x l) := by
  intro l
  induction l with
  | nil => intro _; simp [insertSortedDistinct]
  | cons y ys ih =>
      intro hch
      obtain ⟨hhead, htail⟩ := List.chain'_cons'.mp hch
      unfold insertSortedDistinct
      by_cases h1 : x < y
      · simp only [if_pos h1]
        refine List.chain'_cons'.mpr ⟨?_, hch⟩
        intro w hw
        simp only [List.head?_cons, Option.mem_def, Option.some.injEq] at hw
        omega
      · by_cases h2 : x = y
        · simp only [if_neg h1, if_pos h2]
          exact hch
        · simp only [if_neg h1, if_neg h2]
          refine List.chain'_cons'.mpr ⟨?_, ih htail⟩
          intro w hw
          rcases insertSortedDistinct_head x ys w hw with hwx | hw'
          · subst hwx; omega
          · exact hhead w hw'

theorem uniqueHoles_chain (t : List RegionRow) :
    List.Chain' (· < ·) (uniqueHoles t) := by
  unfold uniqueHoles
  have main : ∀ (l : List RegionRow) (acc : List Int),
      List.Chain' (· < ·) acc →
      List.Chain' (· < ·)
        (l.foldl (fun acc r => insertSortedDistinct r.hole acc) acc) := by
    intro l
    induction l with
    | nil => intro acc h; exact h
    | cons r l ih =>
        intro acc h
        exact ih _ (chain_insertSortedDistinct r.hole acc h)
  exact main t [] (by simp)

theorem uniqueHoles_nodup (t : List RegionRow) : (uniqueHoles t).Nodup := by
  have hp : List.Pairwise (· < ·) (uniqueHoles t) :=
    List.chain'_iff_pairwise.mp (uniqueHoles_chain t)
  exact hp.imp (fun hab => ne_of_lt hab)

/-- A two-row region table for hole 1: one insert row (0, 500) and the
high-quality row (10, 450). -/
def tC2 : List RegionRow := [⟨1, 1, 0, 500, -1⟩, ⟨1, 2, 10, 450, 0⟩]

/-- C2 as stated is false: for a hole with no affix entry the synthesized
table holds only the zero-length high-quality marker row and the full-span
adapter row; the original high-quality row (10, 450) of the input is NOT
copied (the source continues before the final hq_row append). -/
theorem claim_C2_counterexample :
    affix_region_table tC2 "m" [] =
      .ok ([⟨1, 2, 0, 0, 0⟩, ⟨1, 0, 0, 500, 0⟩], []) ∧
    (⟨1, 2, 10, 450, 0⟩ : RegionRow) ∉
      [(⟨1, 2, 0, 0, 0⟩ : RegionRow), ⟨1, 0, 0, 500, 0⟩] :=
  ⟨rfl, by decide⟩

/-- C2 amended: for every hole of the original table with no entry in the
affix-bounds mapping, the synthesized rows for that hole are exactly a
zero-length high-quality marker row and a full-length adapter row covering
the whole read; the original high-quality row is not copied for such
holes. -/
theorem claim_C2_amended (t : List RegionRow) (movie : String)
    (ab : AffixBounds) (out : List RegionRow) (abf : AffixBounds) (h : Int)
    (hrun : affix_region_table t movie ab = .ok (out, abf))
    (hh : h ∈ uniqueHoles t) (hl : alookup ab (movie, h) = none) :
    out.filter (fun r => r.hole == h) =
      [⟨h, HQ_REGION, 0, 0, 0⟩,
       ⟨h, ADAPTER_REGION, 0, maxRend (t.filter (fun r => r.hole == h)), 0⟩] := by
  unfold affix_region_table at hrun
  obtain ⟨rows, hcore, hfil, _⟩ :=
    artLoop_mem t movie (uniqueHoles t) [] ab out abf h hrun
      (uniqueHoles_nodup t) hh
  simp only [List.filter_nil, List.nil_append] at hfil
  rw [hl] at hcore
  unfold holeRowsCore at hcore
  cases hfind : (t.filter (fun r => r.hole == h)).find?
      (fun r => r.kind == HQ_REGION) with
  | none => rw [hfind] at hcore; cases hcore
  | some hq =>
      rw [hfind] at hcore
      cases hcore
      exact hfil

theorem claim_C2_witness :
    ([(⟨1, 2, 0, 0, 0⟩ : RegionRow), ⟨1, 0, 0, 500, 0⟩].filter
        (fun r => r.hole == 1)) =
      [⟨1, HQ_REGION, 0, 0, 0⟩,
       ⟨1, ADAPTER_REGION, 0, maxRend (tC2.filter (fun r => r.hole == 1)), 0⟩] :=
  claim_C2_amended tC2 "m" [] [⟨1, 2, 0, 0, 0⟩, ⟨1, 0, 0, 500, 0⟩] [] 1
    rfl (by decide) rfl

/-- C10: the synthesizer mutates its affix-bounds argument in place: after
the call, the entry of every processed hole that had affixes has been
replaced by its sort, a permutation of the original list that is sorted
ascending by start coordinate. -/
theorem claim_C10_sorts_in_place (t : List RegionRow) (movie : String)
    (ab : AffixBounds) (out : List RegionRow) (abf : AffixBounds) (h : Int)
    (l : List (Int × Int))
    (hrun : affix_region_table t movie ab = .ok (out, abf))
    (hh : h ∈ uniqueHoles t) (hl : alookup ab (movie, h) = some l) :
    alookup abf (movie, h) = some (pySort l) ∧ (pySort l).Perm l ∧
    (pySort l).Sorted (fun a b => a.1 ≤ b.1) := by
  unfold affix_region_table at hrun
  obtain ⟨rows, _hcore, _hfil, habf⟩ :=
    artLoop_mem t movie (uniqueHoles t) [] ab out abf h hrun
      (uniqueHoles_nodup t) hh
  rw [hl] at habf
  refine ⟨habf, List.perm_insertionSort lexLe l, ?_⟩
  have hs := List.sorted_insertionSort lexLe l
  apply List.Pairwise.imp ?_ hs
  intro a b hab
  unfold lexLe at hab
  omega

/-- The region table of the C10 and C5 witness: hole 1 with a high-quality
row and an insert row, read length 500. -/
def tW5 : List RegionRow := [⟨1, 2, 0, 500, 0⟩, ⟨1, 1, 0, 500, -1⟩]

/-- The unsorted affix bounds of the witness. -/
def abW5 : AffixBounds := [(("m", 1), [(200, 300), (50, 100)])]

/-- The synthesized rows of the witness. -/
def outW5 : List RegionRow :=
  [⟨1, 0, 0, 50, 900⟩, ⟨1, 1, 50, 100, -1⟩, ⟨1, 0, 100, 200, 900⟩,
   ⟨1, 1, 200, 300, -1⟩, ⟨1, 0, 300, 500, 900⟩, ⟨1, 2, 0, 500, 0⟩]

theorem claim_C10_witness :
    alookup [((("m", 1) : SubreadKey), [((50 : Int), (100 : Int)), (200, 300)])]
        ("m", 1) = some (pySort [(200, 300), (50, 100)]) ∧
    (pySort [(200, 300), (50, 100)]).Perm [(200, 300), (50, 100)] ∧
    (pySort [(200, 300), (50, 100)]).Sorted
      (fun a b : Int × Int => a.1 ≤ b.1) :=
  claim_C10_sorts_in_place tW5 "m" abW5 outW5
    [(("m", 1), [(50, 100), (200, 300)])] 1 [(200, 300), (50, 100)]
    rfl (by decide) rfl

theorem affixRows_tiles (h len : Int) :
    ∀ (ps : List (Int × Int)) (prev : Int), chainedBelow len prev ps →
      tiles prev len (affixRows h prev len ps) := by
  intro ps
  induction ps with
  | nil =>
      intro prev hcb
      exact ⟨rfl, hcb, rfl⟩
  | cons p ps ih =>
      intro prev hcb
      obtain ⟨h1, h2, h3⟩ := hcb
      exact ⟨rfl, h1, rfl, le_of_lt h2, ih p.2 h3⟩

theorem affixRows_alternate (h len : Int) :
    ∀ (ps : List (Int × Int)) (prev : Int),
      List.Chain' (fun r r2 : RegionRow => r.kind ≠ r2.kind)
        (affixRows h prev len ps) := by
  intro ps
  induction ps with
  | nil => intro prev; simp [affixRows]
  | cons p ps ih =>
      intro prev
      have hhead : ∃ r rs', affixRows h p.2 len ps = r :: rs' ∧
          r.kind = ADAPTER_REGION := by
        cases ps with
        | nil => exact ⟨_, _, rfl, rfl⟩
        | cons q qs => exact ⟨_, _, rfl, rfl⟩
      obtain ⟨r, rs', heq, hk⟩ := hhead
      simp only [affixRows]
      rw [heq]
      refine List.chain'_cons.mpr
        ⟨by norm_num [ADAPTER_REGION, INSERT_REGION], ?_⟩
      refine List.chain'_cons.mpr ⟨?_, ?_⟩
      · rw [hk]; norm_num [ADAPTER_REGION, INSERT_REGION]
      · rw [← heq]; exact ih p.2

theorem chainedBelow_of_sorted (len : Int) :
    ∀ (ps : List (Int × Int)) (prev : Int),
      prev ≤ len →
      (∀ p ∈ ps, p.1 < p.2 ∧ p.2 ≤ len) →
      List.Chain' (fun a b : Int × Int => a.2 ≤ b.1) ps →
      (∀ p, ps.head? = some p → prev ≤ p.1) →
      chainedBelow len prev ps := by
  intro ps
  induction ps with
  | nil => intro prev h _ _ _; exact h
  | cons p ps ih =>
      intro prev _hlen hb hch hhead
      obtain ⟨hc1, hc2⟩ := List.chain'_cons'.mp hch
      have hp := hb p (List.mem_cons_self _ _)
      refine ⟨hhead p rfl, hp.1, ?_⟩
      exact ih p.2 hp.2 (fun q hq => hb q (List.mem_cons_of_mem _ hq)) hc2
        (fun q hq => hc1 q hq)

theorem sorted_disjoint_chain :
    ∀ ps : List (Int × Int),
      List.Pairwise lexLe ps →
      List.Pairwise (fun a b => ¬ rangesOverlap a b) ps →
      (∀ p ∈ ps, p.1 < p.2) →
      List.Chain' (fun a b : Int × Int => a.2 ≤ b.1) ps := by
  intro ps
  induction ps with
  | nil => intro _ _ _; simp
  | cons p ps ih =>
      intro hlex hov hne
      obtain ⟨hlex1, hlex2⟩ := List.pairwise_cons.mp hlex
      obtain ⟨hov1, hov2⟩ := List.pairwise_cons.mp hov
      refine List.chain'_cons'.mpr
        ⟨?_, ih hlex2 hov2 (fun q hq => hne q (List.mem_cons_of_mem _ hq))⟩
      intro q hq
      have hqmem : q ∈ ps := List.mem_of_mem_head? hq
      have hl := hlex1 q hqmem
      have ho := hov1 q hqmem
      have hqne := hne q (List.mem_cons_of_mem _ hqmem)
      by_contra hcon
      push_neg at hcon
      apply ho
      unfold rangesOverlap
      have hp1q1 : p.1 ≤ q.1 := by unfold lexLe at hl; omega
      rw [max_eq_right hp1q1]
      exact lt_min hcon hqne

/-- C5: assuming the affix intervals recorded for a hole are pairwise
disjoint non-degenerate sub-intervals of the read, the non-high-quality
rows the synthesizer emits for that hole exactly tile the read from 0 to
its length, in nondecreasing start order with no gaps and no overlaps, and
consecutive non-high-quality rows never share an annotation kind. -/
theorem claim_C5_tiling_alternation (t : List RegionRow) (movie : String)
    (ab : AffixBounds) (out : List RegionRow) (abf : AffixBounds) (h : Int)
    (hrun : affix_region_table t movie ab = .ok (out, abf))
    (hh : h ∈ uniqueHoles t)
    (hL : 0 ≤ maxRend (t.filter (fun r => r.hole == h)))
    (haff : ∀ l, alookup ab (movie, h) = some l →
        (∀ p ∈ l, 0 ≤ p.1 ∧ p.1 < p.2 ∧
            p.2 ≤ maxRend (t.filter (fun r => r.hole == h))) ∧
        List.Pairwise (fun a b => ¬ rangesOverlap a b) l) :
    tiles 0 (maxRend (t.filter (fun r => r.hole == h)))
        (out.filter (fun r => r.hole == h && r.kind != HQ_REGION)) ∧
    List.Chain' (fun r r2 : RegionRow => r.kind ≠ r2.kind)
        (out.filter (fun r => r.hole == h && r.kind != HQ_REGION)) := by
  unfold affix_region_table at hrun
  obtain ⟨rows, hcore, hfil, _⟩ :=
    artLoop_mem t movie (uniqueHoles t) [] ab out abf h hrun
      (uniqueHoles_nodup t) hh
  simp only [List.filter_nil, List.nil_append] at hfil
  have hsplit : out.filter (fun r => r.hole == h && r.kind != HQ_REGION) =
      rows.filter (fun r => r.kind != HQ_REGION) := by
    rw [← hfil, List.filter_filter]
    apply List.filter_congr
    intro r _
    exact Bool.and_comm _ _
  rw [hsplit]
  unfold holeRowsCore at hcore
  cases hfind : (t.filter (fun r => r.hole == h)).find?
      (fun r => r.kind == HQ_REGION) with
  | none => rw [hfind] at hcore; cases hcore
  | some hq =>
      rw [hfind] at hcore
      have hqkind : hq.kind = HQ_REGION := by
        have := List.find?_some hfind
        simpa using this
      cases hl : alookup ab (movie, h) with
      | none =>
          rw [hl] at hcore
          cases hcore
          have e1 : ((RegionRow.mk h HQ_REGION 0 0 0).kind != HQ_REGION)
              = false := by simp
          have e2 : ((RegionRow.mk h ADAPTER_REGION 0
              (maxRend (t.filter (fun r => r.hole == h))) 0).kind != HQ_REGION)
              = true := by
            simp only [ADAPTER_REGION, HQ_REGION]
            decide
          have hfl : ([⟨h, HQ_REGION, 0, 0, 0⟩,
              ⟨h, ADAPTER_REGION, 0,
                maxRend (t.filter (fun r => r.hole == h)), 0⟩] :
                List RegionRow).filter (fun r => r.kind != HQ_REGION) =
              [⟨h, ADAPTER_REGION, 0,
                maxRend (t.filter (fun r => r.hole == h)), 0⟩] := by
            simp [List.filter_cons, e1, e2]
          rw [hfl]
          exact ⟨⟨rfl, hL, rfl⟩, by simp⟩
      | some l =>
          rw [hl] at hcore
          cases hcore
          obtain ⟨hbounds, hpw⟩ := haff l hl
          have hfilrows :
              (affixRows h 0 (maxRend (t.filter (fun r => r.hole == h)))
                  (pySort l) ++ [hq]).filter (fun r => r.kind != HQ_REGION) =
              affixRows h 0 (maxRend (t.filter (fun r => r.hole == h)))
                (pySort l) := by
            rw [List.filter_append]
            have h1 : (affixRows h 0
                (maxRend (t.filter (fun r => r.hole == h)))
                (pySort l)).filter (fun r => r.kind != HQ_REGION) =
                affixRows h 0 (maxRend (t.filter (fun r => r.hole == h)))
                  (pySort l) := by
              rw [List.filter_eq_self]
              intro r hr
              rcases affixRows_kinds h (pySort l) 0 _ r hr with hk | hk <;>
                rw [hk] <;> simp [ADAPTER_REGION, INSERT_REGION, HQ_REGION]
            have h2 : ([hq] : List RegionRow).filter
                (fun r => r.kind != HQ_REGION) = [] := by
              simp [List.filter_cons, hqkind]
            rw [h1, h2, List.append_nil]
          rw [hfilrows]
          have hperm := List.perm_insertionSort lexLe l
          have hsortmem : ∀ p ∈ pySort l,
              0 ≤ p.1 ∧ p.1 < p.2 ∧
              p.2 ≤ maxRend (t.filter (fun r => r.hole == h)) := by
            intro p hp
            exact hbounds p (hperm.mem_iff.mp hp)
          have hpwsort : List.Pairwise (fun a b => ¬ rangesOverlap a b)
              (pySort l) := by
            refine (List.Perm.pairwise_iff ?_ hperm).mpr hpw
            intro x y hxy hyx
            apply hxy
            unfold rangesOverlap at hyx ⊢
            rw [max_comm, min_comm]
            exact hyx
          have hchain := sorted_disjoint_chain (pySort l)
            (List.sorted_insertionSort lexLe l) hpwsort
            (fun q hq2 => (hsortmem q hq2).2.1)
          have hcb : chainedBelow
              (maxRend (t.filter (fun r => r.hole == h))) 0 (pySort l) := by
            apply chainedBelow_of_sorted _ (pySort l) 0 hL
              (fun q hq2 => ⟨(hsortmem q hq2).2.1, (hsortmem q hq2).2.2⟩)
              hchain
            intro q hq2
            exact (hsortmem q (List.mem_of_mem_head? hq2)).1
          exact ⟨affixRows_tiles h _ (pySort l) 0 hcb,
                 affixRows_alternate h _ (pySort l) 0⟩

theorem claim_C5_witness :
    tiles 0 (maxRend (tW5.filter (fun r => r.hole == 1)))
        (outW5.filter (fun r => r.hole == 1 && r.kind != HQ_REGION)) ∧
    List.Chain' (fun r r2 : RegionRow => r.kind ≠ r2.kind)
        (outW5.filter (fun r => r.hole == 1 && r.kind != HQ_REGION)) :=
  claim_C5_tiling_alternation tW5 "m" abW5 outW5
    [(("m", 1), [(50, 100), (200, 300)])] 1 rfl (by decide) (by decide)
    (by
      intro l hl
      rw [show alookup abW5 ("m", 1) =
        some [((200 : Int), (300 : Int)), (50, 100)] from rfl] at hl
      cases hl
      exact ⟨by decide, by decide⟩)

end Pbbridgemapper
